import Mathlib

/-!
Verification of the truenascharts updater (src/.updater/update.py and
src/.updater/version_checker/version_checker.py) against its
natural-language specification.

The Python code is shallowly embedded: pure string manipulation is
translated to total Lean functions on List Char / String, registry HTTP
traffic is abstracted as explicit response values passed in as arguments,
and exceptions become an explicit error type.  Python `re` character
classes are modeled over ASCII, which covers every tag syntax the updater
handles (registry tags are ASCII).  Tags are assumed newline-free, so a
search for an anchored pattern coincides with a full match.
-/

/-- The exception kinds raised by the updater.  `valueError` models Python
ValueError (the spec names these "NotFound", "MalformedVersion" and
"MissingHistoryEntry" depending on the raise site), `httpError` models
requests HTTPError raised by `raise_for_status` (the spec names it
"RegistryError"), and `keyError` models a KeyError on a missing dict key. -/
inductive PyError
  | valueError (msg : String)
  | httpError
  | keyError
deriving DecidableEq

/-! ## Python string primitives (structural, kernel-computable) -/

/-- Decimal value of a digit list, as computed by Python int() on a string
of ASCII digits. -/
def natFromDigits (cs : List Char) : Nat :=
  cs.foldl (fun n c => n * 10 + (c.toNat - 48)) 0

/-- Python str.strip() restricted to ASCII whitespace. -/
def pyStrip (cs : List Char) : List Char :=
  ((cs.dropWhile Char.isWhitespace).reverse.dropWhile Char.isWhitespace).reverse

/-- Python s.split(sep) for a single-character separator. -/
def splitOnChar (sep : Char) : List Char → List (List Char)
  | [] => [[]]
  | c :: rest =>
    if c = sep then [] :: splitOnChar sep rest
    else
      match splitOnChar sep rest with
      | h :: t => (c :: h) :: t
      | [] => [[c]]

/-- Python s.split(sep, maxsplit=1) for a single-character separator:
the part before the first separator, and the remainder when the
separator occurs. -/
def splitOnCharOnce (sep : Char) : List Char → List Char × Option (List Char)
  | [] => ([], none)
  | c :: rest =>
    if c = sep then ([], some rest)
    else
      match splitOnCharOnce sep rest with
      | (a, b) => (c :: a, b)

/-- Python s.split("->"), used on git status porcelain rename lines. -/
def splitOnArrow : List Char → List (List Char)
  | [] => [[]]
  | '-' :: '>' :: rest => [] :: splitOnArrow rest
  | c :: rest =>
    match splitOnArrow rest with
    | h :: t => (c :: h) :: t
    | [] => [[c]]

/-- When `pat` is an initial segment of `cs`, return the remainder. -/
def takeAfter : List Char → List Char → Option (List Char)
  | [], cs => some cs
  | _ :: _, [] => none
  | p :: ps, c :: cs => if c = p then takeAfter ps cs else none

/-- Python str.replace(old, new): replace every non-overlapping occurrence,
scanning left to right.  Driven by fuel, which the wrapper sets to the
string length (enough for every step, since a step always consumes at
least one character when the pattern is nonempty). -/
def replaceAllFuel (pat rep : List Char) : Nat → List Char → List Char
  | _, [] => []
  | 0, cs => cs
  | Nat.succ f, c :: rest =>
    match takeAfter pat (c :: rest) with
    | some rem => rep ++ replaceAllFuel pat rep f rem
    | none => c :: replaceAllFuel pat rep f rest

/-- Python s.replace(old, new) on strings (for nonempty old, as used by the
updater on chart version strings). -/
def pyReplace (s pat rep : String) : String :=
  if pat.data.isEmpty then s
  else String.mk (replaceAllFuel pat.data rep.data s.data.length s.data)

/-- Python s.split(".") on strings. -/
def pySplitDot (s : String) : List String :=
  (splitOnChar '.' s.data).map String.mk

/-! ## Python int() (update.py line 56: `int(patch)`) -/

/-- After an initial digit: Python int() accepts further digits with single
underscores strictly between digits. -/
def digitsUAux : List Char → Bool
  | [] => true
  | '_' :: rest =>
    match rest with
    | [] => false
    | c :: rest2 => c.isDigit && digitsUAux rest2
  | c :: rest => c.isDigit && digitsUAux rest

/-- A valid unsigned integer-literal body for Python int(). -/
def intBody : List Char → Bool
  | [] => false
  | c :: rest => c.isDigit && digitsUAux rest

/-- Magnitude of a valid int() body (underscores ignored). -/
def intMagnitude (cs : List Char) : Nat :=
  natFromDigits (cs.filter (fun c => c ≠ '_'))

/-- Python int(s) on a str: strip whitespace, optional sign, digits with
optional single underscores between them; `none` models ValueError.
(Unicode digits and exotic whitespace are not modeled; chart versions are
ASCII.) -/
def pyIntOfStr (s : String) : Option Int :=
  match pyStrip s.data with
  | '+' :: rest => if intBody rest then some (Int.ofNat (intMagnitude rest)) else none
  | '-' :: rest => if intBody rest then some (-(Int.ofNat (intMagnitude rest))) else none
  | cs => if intBody cs then some (Int.ofNat (intMagnitude cs)) else none

/-! ## ChartVersion (update.py lines 31-49) -/

/-- update.py: dataclass ChartVersion. -/
structure ChartVersion where
  version : String
  app_version : String
  last_update : String
  digest : Option String := none
  tag : Option String := none
deriving DecidableEq

/-- update.py lines 41-43: the human_version property
f-string `{app_version}_{version}`. -/
def ChartVersion.human_version (c : ChartVersion) : String :=
  c.app_version ++ "_" ++ c.version

/-- Python truthiness of an Optional[str]: None and the empty string are
falsy. -/
def optTruthy : Option String → Bool
  | none => false
  | some s => s != ""

/-- update.py lines 45-49: ChartVersion dunder eq.  Prefer digest compare
when both digests are truthy, otherwise compare tag and app_version. -/
def ChartVersion.eq (a b : ChartVersion) : Bool :=
  if optTruthy a.digest && optTruthy b.digest then a.digest == b.digest
  else (a.tag == b.tag) && (a.app_version == b.app_version)

/-! ## increment_version (update.py lines 52-57) -/

/-- update.py lines 52-57: split on ".", unpack exactly three parts,
int-parse the third, add one, join back.  A failed unpack or int-parse is
a ValueError (the kind the spec calls MalformedVersion). -/
def increment_version (version : String) : Except PyError String :=
  match pySplitDot version with
  | [major, minor, patch] =>
    match pyIntOfStr patch with
    | some n => Except.ok (String.intercalate "." [major, minor, toString (n + 1)])
    | none => Except.error (PyError.valueError "invalid literal for int")
  | _ => Except.error (PyError.valueError "cannot unpack version")

/-! ## split_tag_digest (update.py lines 60-64) -/

/-- update.py lines 60-64: split a pinned image tag value on the first
at-sign into tag and optional digest. -/
def split_tag_digest (s : String) : String × Option String :=
  match splitOnCharOnce '@' s.data with
  | (t, none) => (String.mk t, none)
  | (t, some d) => (String.mk t, some (String.mk d))

/-! ## The update-needed decision (update.py lines 198-202) -/

/-- update.py lines 198-202 inside check_version: with a truthy local
digest, compare digests or tags; otherwise compare tags only. -/
def need_update_decision (local_tag : String) (local_digest : Option String)
    (remote_tag remote_digest : String) : Bool :=
  match local_digest with
  | some d =>
    if d = "" then remote_tag != local_tag
    else (remote_digest != d) || (remote_tag != local_tag)
  | none => remote_tag != local_tag

/-! ## Python re searches used by the updater

The updater uses five regex shapes: fullmatch of a 10-digit run, fullmatch
of digits-dot-digits-dot-digits, fullmatch of a 10-digit run followed by a
dash and a nonempty run of tag characters, and unanchored searches for the
first two shapes.  Each is translated directly, with the leftmost-match
scan of re.search made explicit. -/

/-- The maximal run of ASCII digits at the head of the list, and the rest.
This is the string a greedy Python digit-plus item consumes. -/
def takeDigits : List Char → List Char × List Char
  | [] => ([], [])
  | c :: cs =>
    if c.isDigit then (c :: (takeDigits cs).1, (takeDigits cs).2)
    else ([], c :: cs)

/-- re.fullmatch of a run of exactly ten digits (update.py lines 103 and
129). -/
def isFullTs10 (s : String) : Bool :=
  s.data.length == 10 && s.data.all Char.isDigit

/-- Python re matching of digits-dot-digits-dot-digits at the start of the
list: the matched characters when the pattern matches there, `none`
otherwise.  Greedy matching needs no backtracking for this pattern: each
digit-plus item can only stop where the digit run is exhausted, because a
shorter item would have to be followed by a dot yet is followed by a
digit. -/
def semverAt (cs : List Char) : Option (List Char) :=
  match takeDigits cs with
  | (a, '.' :: r2) =>
    if a = [] then none
    else
      match takeDigits r2 with
      | (b, '.' :: r4) =>
        if b = [] then none
        else
          match takeDigits r4 with
          | (c, _) => if c = [] then none else some (a ++ '.' :: (b ++ '.' :: c))
      | _ => none
  | _ => none

/-- re.fullmatch of digits-dot-digits-dot-digits (update.py lines 107 and
134): the match at position zero consumes the entire string. -/
def isFullSemver (s : String) : Bool :=
  semverAt s.data == some s.data

/-- The tag-character class of update.py line 142: ASCII letters, digits,
underscore, dot and dash. -/
def isArchChar (c : Char) : Bool :=
  c.isAlphanum || c = '_' || c = '.' || c = '-'

/-- re.fullmatch of ten digits, a dash, and a nonempty run of
tag characters (update.py line 142). -/
def isFullArchTs (s : String) : Bool :=
  ((s.data.take 10).length == 10 && (s.data.take 10).all Char.isDigit) &&
    match s.data.drop 10 with
    | '-' :: rest => !rest.isEmpty && rest.all isArchChar
    | _ => false

/-- A ten-digit window match at the start of the list: re matching of the
ten-digit pattern at one position (exact repetition, no backtracking). -/
def ts10At (cs : List Char) : Option (List Char) :=
  if (cs.take 10).length = 10 ∧ ∀ x ∈ cs.take 10, x.isDigit = true then
    some (cs.take 10)
  else none

/-- The position scan of re.search: try the pattern at each position from
the left, returning the first match.  (Both patterns used here need at
least one character, so the end position never matches.) -/
def scanPositions (f : List Char → Option (List Char)) : List Char → Option (List Char)
  | [] => none
  | c :: cs =>
    match f (c :: cs) with
    | some m => some m
    | none => scanPositions f cs

/-- re.search of the ten-digit pattern (update.py line 105). -/
def searchTs10 (s : String) : Option String :=
  (scanPositions ts10At s.data).map String.mk

/-- re.search of the digits-dot-digits-dot-digits pattern (update.py line
109). -/
def searchSemver (s : String) : Option String :=
  (scanPositions semverAt s.data).map String.mk

/-- Declarative reading of the ten-digit pattern matching at position i:
the next ten characters exist and are all digits. -/
def windowAt (cs : List Char) (i : Nat) : Prop :=
  ((cs.drop i).take 10).length = 10 ∧ ∀ x ∈ (cs.drop i).take 10, x.isDigit = true

instance (cs : List Char) (i : Nat) : Decidable (windowAt cs i) := by
  unfold windowAt
  exact inferInstance

/-- Declarative reading of the semver pattern matching at the head of a
list: some decomposition into three nonempty digit runs separated by
dots, followed by arbitrary rest. -/
def semverDecomp (cs : List Char) : Prop :=
  ∃ a b c r, cs = a ++ '.' :: (b ++ '.' :: (c ++ r)) ∧ a ≠ [] ∧ b ≠ [] ∧ c ≠ [] ∧
    (∀ x ∈ a, x.isDigit = true) ∧ (∀ x ∈ b, x.isDigit = true) ∧
    (∀ x ∈ c, x.isDigit = true)

/-! ## derive_app_version_from_tag (update.py lines 102-111) -/

/-- update.py lines 102-111: appVersion derivation for a heuristically
chosen tag.  Order as in the source: full ten-digit match, then ten-digit
search, then full semver match, then semver search, then the tag itself. -/
def derive_app_version_from_tag (tag : String) : String :=
  if isFullTs10 tag then tag
  else
    match searchTs10 tag with
    | some m => m
    | none =>
      if isFullSemver tag then tag
      else
        match searchSemver tag with
        | some m => m
        | none => tag

/-! ## choose_best_tag (update.py lines 114-156) -/

/-- Order-preserving de-duplication, first occurrence kept:
list(dict.fromkeys(tags)) of update.py line 125. -/
def dedupFirstGo : List String → List String → List String
  | [], _ => []
  | t :: ts, seen =>
    if t ∈ seen then dedupFirstGo ts seen
    else t :: dedupFirstGo ts (t :: seen)

/-- list(dict.fromkeys(tags)). -/
def dedupFirst (l : List String) : List String :=
  dedupFirstGo l []

/-- Python max(l, key=key) on a nonempty list: keep the current best and
replace it only on a strictly larger key, so the first element with the
maximal key wins.  The set comprehensions of update.py iterate a Python
set, whose order is unspecified; it is modeled here as first-occurrence
order, which only matters when two distinct tags share a key. -/
def pyMax {β : Type} [LinearOrder β] (key : String → β) : List String → Option String
  | [] => none
  | t :: ts => some (ts.foldl (fun best x => if key best < key x then x else best) t)

/-- Key of update.py line 131: int(t) on a ten-digit tag. -/
def ts_val (t : String) : Nat :=
  natFromDigits t.data

/-- Key of update.py lines 136-138: the three dot-separated components as
integers, compared lexicographically as a Python tuple does. -/
def semver_key (t : String) : Lex (Nat × Lex (Nat × Nat)) :=
  match pySplitDot t with
  | [a, b, c] => toLex (natFromDigits a.data, toLex (natFromDigits b.data, natFromDigits c.data))
  | _ => toLex (0, toLex (0, 0))

/-- Key of update.py lines 144-146: int of the part before the first dash
(t.split with maxsplit one, first element). -/
def arch_ts_key (t : String) : Nat :=
  natFromDigits (t.data.takeWhile (fun c => c ≠ '-'))

/-- Key of update.py line 153: the pair of length and the string itself,
compared lexicographically as a Python tuple does. -/
def len_lex_key (t : String) : Lex (Nat × String) :=
  toLex (t.length, t)

/-- update.py lines 114-156: heuristic tag selection.  De-dupe, then in
order: ten-digit timestamp tags by largest value, semver tags by largest
component tuple, dashed timestamp tags by largest timestamp value,
non-"latest" tags by length then string, else the first remaining tag.
`none` models the IndexError that line 156 raises on an empty list. -/
def choose_best_tag (tags0 : List String) : Option String :=
  if (dedupFirst tags0).filter isFullTs10 ≠ [] then
    pyMax ts_val ((dedupFirst tags0).filter isFullTs10)
  else if (dedupFirst tags0).filter isFullSemver ≠ [] then
    pyMax semver_key ((dedupFirst tags0).filter isFullSemver)
  else if (dedupFirst tags0).filter isFullArchTs ≠ [] then
    pyMax arch_ts_key ((dedupFirst tags0).filter isFullArchTs)
  else if (dedupFirst tags0).filter (fun t => t ≠ "latest") ≠ [] then
    pyMax len_lex_key ((dedupFirst tags0).filter (fun t => t ≠ "latest"))
  else (dedupFirst tags0).head?

/-! ## parse_version (update.py lines 67-99)

A pattern is embedded as its re.search behavior: a function from a tag to
the optional matched substring.  A rewriter is embedded as its str.format
behavior on the single positional argument. -/

/-- The matcher argument of parse_version: None, a single pattern, or a
list of patterns (update.py lines 77-83 normalize it to a list). -/
inductive MatcherArg
  | nothing
  | single (p : String → Option String)
  | many (ps : List (String → Option String))

/-- update.py lines 77-83: normalize the matcher argument to a pattern
list. -/
def normalizeMatcher : MatcherArg → List (String → Option String)
  | MatcherArg.nothing => []
  | MatcherArg.single p => [p]
  | MatcherArg.many ps => ps

/-- update.py lines 87-92 inner loop: the first tag (in order) on which
the pattern matches, with the matched substring. -/
def firstTagMatch (p : String → Option String) : List String → Option (String × String)
  | [] => none
  | t :: ts =>
    match p t with
    | some raw => some (t, raw)
    | none => firstTagMatch p ts

/-- update.py lines 86-92 outer loop: the first pattern (in order) that
matches some tag, with that first tag and substring. -/
def firstPatternMatch : List (String → Option String) → List String → Option (String × String)
  | [], _ => none
  | p :: ps, tags =>
    match firstTagMatch p tags with
    | some r => some r
    | none => firstPatternMatch ps tags

/-- update.py lines 90-91 and 97-98: apply the optional rewrite template.
(The source tests the truthiness of the template string; an empty template
is modeled as `Option.none`.) -/
def applyRewriter (rw : Option (String → String)) (s : String) : String :=
  match rw with
  | some f => f s
  | none => s

/-- update.py lines 67-99: find a tag matching a pattern and derive an
appVersion from it, else fall back to choose_best_tag plus
derive_app_version_from_tag.  `none` models the IndexError escaping from
choose_best_tag on an empty tag list. -/
def parse_version (tags : List String) (matcher : MatcherArg)
    (rewriter : Option (String → String)) : Option (String × String) :=
  match firstPatternMatch (normalizeMatcher matcher) tags with
  | some (t, raw) => some (t, applyRewriter rewriter raw)
  | none =>
    match choose_best_tag tags with
    | some chosen => some (chosen, applyRewriter rewriter (derive_app_version_from_tag chosen))
    | none => none

/-! ## The three concrete patterns of the jellyfin configuration
(apps_config.py): caret-digits-ten-dollar, caret-semver-dollar and
caret-digits-ten-dash-amd64-dollar.  On newline-free tags an anchored
re.search is exactly a full match returning the whole tag. -/

/-- re.search of the anchored ten-digit pattern. -/
def patAnchoredTs10 (s : String) : Option String :=
  if isFullTs10 s then some s else none

/-- re.search of the anchored semver pattern. -/
def patAnchoredSemver (s : String) : Option String :=
  if isFullSemver s then some s else none

/-- re.search of the anchored ten-digit-dash-amd64 pattern. -/
def patAnchoredTs10Amd64 (s : String) : Option String :=
  if ((s.data.take 10).length == 10 && (s.data.take 10).all Char.isDigit) &&
      s.data.drop 10 = "-amd64".data then
    some s
  else none

/-! ## Registry checkers (version_checker.py)

Network traffic is abstracted: every HTTP response the code can receive is
an explicit argument.  A response is either the parsed payload of a
success, or a non-success on which raise_for_status throws. -/

/-- An HTTP response: payload on success, or a non-success status. -/
inductive HttpResp (α : Type)
  | ok (a : α)
  | failure

/-- One element of the Docker Hub tag-list results array: the fields the
checker reads. -/
structure DHTagResult where
  name : String
  digest : Option String
deriving DecidableEq

/-- One Docker Hub tag-list page: the results array and whether a next
page link is present. -/
structure DHTagPage where
  results : List DHTagResult
  hasNext : Bool

/-- Stable-sort by code point used to model Python sorted(). -/
def insertSorted (x : String) : List String → List String
  | [] => [x]
  | y :: ys => if x ≤ y then x :: y :: ys else y :: insertSorted x ys

/-- Python sorted() on strings. -/
def sortStrings : List String → List String
  | [] => []
  | x :: xs => insertSorted x (sortStrings xs)

/-- Python sorted(set(l)). -/
def sortedUnique (l : List String) : List String :=
  sortStrings (dedupFirst l)

/-- version_checker.py lines 82-84: a results entry counts for the digest
when its digest field is present, truthy, and equal. -/
def dhDigestMatches (digest : String) (r : DHTagResult) : Bool :=
  match r.digest with
  | some d => d != "" && d == digest
  | none => false

/-- version_checker.py lines 51-99, DockerHubChecker.get_latest_version,
after the target tag and its digest are identified: collect matching tags
from the first page, and when a next page exists (page budget two) from
the second fetched page. -/
def dockerhubCollect (data : DHTagPage) (page2 : HttpResp DHTagPage)
    (digest : String) : Except PyError (List String × String) :=
  let m1 := (data.results.filter (dhDigestMatches digest)).map DHTagResult.name
  if data.hasNext then
    match page2 with
    | HttpResp.failure => Except.error PyError.httpError
    | HttpResp.ok data2 =>
      let m2 := (data2.results.filter (dhDigestMatches digest)).map DHTagResult.name
      Except.ok (sortedUnique (m1 ++ m2), digest)
  else Except.ok (sortedUnique m1, digest)

/-- version_checker.py lines 51-99, DockerHubChecker.get_latest_version:
raise on a failed first request; ValueError when the results array is
falsy; with a label, ValueError when no results entry carries that name;
KeyError when the target entry has no digest field; then collect matching
tags over at most two pages (raising on a failed second fetch). -/
def dockerhub_get_latest_version (page1 : HttpResp DHTagPage)
    (page2 : HttpResp DHTagPage) (label : Option String) :
    Except PyError (List String × String) :=
  match page1 with
  | HttpResp.failure => Except.error PyError.httpError
  | HttpResp.ok data =>
    if data.results.isEmpty then Except.error (PyError.valueError "No tags found")
    else
      match label with
      | some l =>
        match (data.results.filter (fun r => r.name = l)).head? with
        | none => Except.error (PyError.valueError "No tags matching label found")
        | some target =>
          match target.digest with
          | none => Except.error PyError.keyError
          | some digest => dockerhubCollect data page2 digest
      | none =>
        match data.results.head? with
        | none => Except.error (PyError.valueError "unreachable: results nonempty")
        | some target =>
          match target.digest with
          | none => Except.error PyError.keyError
          | some digest => dockerhubCollect data page2 digest

/-- version_checker.py lines 140-174, GHCRChecker.get_latest_version.
`tagsResp` is the tags/list response (its falsy-tags case covers both a
missing and an empty tags array); `manifest` gives, per tag, the manifest
response with the Docker-Content-Digest header, the empty string when the
header is absent.  No membership check of the label against the tag list
is performed: the label is used directly as the target tag.  A failing
manifest fetch for the target propagates; per-tag failures in the
matching loop are swallowed. -/
def ghcr_get_latest_version (tagsResp : HttpResp (List String))
    (manifest : String → HttpResp String) (label : Option String) :
    Except PyError (List String × String) :=
  match tagsResp with
  | HttpResp.failure => Except.error PyError.httpError
  | HttpResp.ok tags =>
    match tags with
    | [] => Except.error (PyError.valueError "No tags found")
    | t0 :: _ =>
      let target := label.getD t0
      let others := tags.filter (fun t => t ≠ target)
      match manifest target with
      | HttpResp.failure => Except.error PyError.httpError
      | HttpResp.ok digest =>
        if digest = "" then Except.error (PyError.valueError "Could not find manifest digest")
        else
          let matching := target :: others.filter (fun t =>
            match manifest t with
            | HttpResp.ok d2 => d2 == digest
            | HttpResp.failure => false)
          Except.ok (sortedUnique matching, digest)

/-! ## update_app_version_json (update.py lines 221-249)

A version-history file is an ordered map from chart version string to an
entry.  Entry fields the code touches are explicit; every other field of
the JSON object is collected in `extra` and must ride along unchanged. -/

/-- The chart_metadata object of a history entry: the two fields the code
rewrites plus all others. -/
structure ChartMeta where
  version : String
  appVersion : String
  extra : List (String × String)
deriving DecidableEq

/-- One history entry: the fields the code rewrites plus all others. -/
structure HistoryEntry where
  location : String
  version : String
  human_version : String
  last_update : String
  chart_metadata : ChartMeta
  extra : List (String × String)
deriving DecidableEq

/-- An ordered JSON object mapping version strings to entries. -/
abbrev History := List (String × HistoryEntry)

/-- Python dict lookup (keys are unique in a parsed JSON object; the first
binding wins). -/
def lookupKey (k : String) : History → Option HistoryEntry
  | [] => none
  | (k2, v) :: rest => if k2 = k then some v else lookupKey k rest

/-- The double-splat merge of update.py line 232 placing one new binding
first: the key goes first with the value from the old dict when the key
already exists there, and the remaining old bindings keep their order. -/
def dictInsertFirst (k : String) (v : HistoryEntry) (d : History) : History :=
  (k, (lookupKey k d).getD v) :: d.filter (fun p => p.1 ≠ k)

/-- In-place value update at one key, as Python dict item update. -/
def updateValueAt (k : String) (f : HistoryEntry → HistoryEntry) (d : History) : History :=
  d.map (fun p => if p.1 = k then (p.1, f p.2) else p)

/-- update.py lines 221-249: clone the entry of the old version (ValueError
when absent, the kind the spec calls MissingHistoryEntry; the file is not
rewritten then), merge it in at the front under the new version key, then
overwrite location, version, human_version, last_update and the
chart_metadata version and appVersion.  The location is rewritten from
the reference entry with str.replace of the old version by the new.
(The source also raises when the found entry is an empty JSON object; with
structured entries that case does not arise.) -/
def update_app_version_json (hist : History)
    (old_version new_version : ChartVersion) : Except PyError History :=
  match lookupKey old_version.version hist with
  | none => Except.error (PyError.valueError "Could not find version in history")
  | some ref =>
    let step1 := dictInsertFirst new_version.version ref hist
    let step2 := updateValueAt new_version.version (fun e =>
      { e with
        location := pyReplace ref.location old_version.version new_version.version
        version := new_version.version
        human_version := new_version.human_version
        last_update := new_version.last_update }) step1
    let step3 := updateValueAt new_version.version (fun e =>
      { e with chart_metadata :=
        { e.chart_metadata with
          version := new_version.version
          appVersion := new_version.app_version } }) step2
    Except.ok step3

/-! ## ensure_clean_git (update.py lines 300-323) and the main loop
(update.py lines 326-361)

The git status porcelain output is an explicit list of lines.  File writes
are modeled as trace events; the per-application check results
(check_version) and git commit outcomes are explicit inputs. -/

/-- update.py lines 308-312: the path part of one porcelain line (drop the
two status characters and the space when the line is long enough), split
on the rename arrow, each side stripped. -/
def porcelainPaths (ln : String) : List (List Char) :=
  let pathPart := if 4 ≤ ln.data.length then pyStrip (ln.data.drop 3) else pyStrip ln.data
  (splitOnArrow pathPart).map pyStrip

/-- update.py lines 314-316: a path is inside the reserved maintenance
path when, after backslash normalization, it is the dot-updater directory
itself or starts with it followed by a slash. -/
def updaterSkip (p : List Char) : Bool :=
  let pn := p.map (fun c => if c = '\\' then '/' else c)
  pn = ".updater".data || (takeAfter ".updater/".data pn).isSome

/-- update.py lines 306-317: the dirty paths of a porcelain status:
all path parts of nonblank lines that are not inside the reserved
maintenance path. -/
def dirty_paths (statusLines : List String) : List (List Char) :=
  (((statusLines.filter (fun ln => pyStrip ln.data ≠ [])).map porcelainPaths).flatten).filter
    (fun p => !updaterSkip p)

/-- update.py lines 319-323: ensure_clean_git raises exactly when some
dirty path remains. -/
def ensure_clean_git_fails (statusLines : List String) : Bool :=
  !(dirty_paths statusLines).isEmpty

/-- The outcome of check_version and of the git commit for one configured
application, abstracting its network and file reads. -/
structure AppStep where
  needUpdate : Bool
  commitOk : Bool

/-- The observable actions of the main loop, tagged with the index of the
application being processed. -/
inductive Event
  | check (i : Nat)
  | ensureClean (i : Nat)
  | writeCatalog (i : Nat)
  | writeHistory (i : Nat)
  | writeVersionDir (i : Nat)
  | gitCommit (i : Nat)
deriving DecidableEq

/-- The three file-writing steps of the main loop. -/
def Event.isWrite : Event → Bool
  | Event.writeCatalog _ => true
  | Event.writeHistory _ => true
  | Event.writeVersionDir _ => true
  | _ => false

/-- The application index an event belongs to. -/
def Event.idx : Event → Nat
  | Event.check i => i
  | Event.ensureClean i => i
  | Event.writeCatalog i => i
  | Event.writeHistory i => i
  | Event.writeVersionDir i => i
  | Event.gitCommit i => i

/-- update.py lines 326-361, one iteration at a time: check, skip when no
update is needed, else run ensure_clean_git (sys.exit(1) when it raises,
before any write), else write catalog, history and the version directory
and commit (sys.exit(1) on a failed commit).  The working-tree status is
held fixed over the run: the loop commits exactly what it writes, so the
status seen by a later iteration equals the initial one.  File writes are
modeled as always succeeding events. -/
def runMainGo (dirty : Bool) (i : Nat) : List AppStep → List Event × Nat
  | [] => ([], 0)
  | a :: rest =>
    if a.needUpdate then
      if dirty then ([Event.check i, Event.ensureClean i], 1)
      else
        let block := [Event.check i, Event.ensureClean i, Event.writeCatalog i,
          Event.writeHistory i, Event.writeVersionDir i, Event.gitCommit i]
        if a.commitOk then
          match runMainGo dirty (i + 1) rest with
          | (tr, code) => (block ++ tr, code)
        else (block, 1)
    else
      match runMainGo dirty (i + 1) rest with
      | (tr, code) => (Event.check i :: tr, code)

/-- The main loop over the configured applications with a given porcelain
status. -/
def runMain (apps : List AppStep) (statusLines : List String) : List Event × Nat :=
  runMainGo (ensure_clean_git_fails statusLines) 0 apps

/-- Temporal property of a trace: every file-writing event is preceded by
the cleanliness check of the same application. -/
def cleanBeforeWrites (tr : List Event) : Prop :=
  ∀ pre w post, tr = pre ++ w :: post → w.isWrite = true →
    Event.ensureClean w.idx ∈ pre

/-! ## Fixtures for concrete instances -/

/-- The pattern list of the jellyfin configuration (apps_config.py). -/
def jellyfinPatterns : List (String → Option String) :=
  [patAnchoredTs10, patAnchoredSemver, patAnchoredTs10Amd64]

/-- The tag list of the spec example. -/
def jellyfinTags : List String :=
  ["2025121505", "10.10.6", "2025121505-amd64"]

/-! # Helper lemmas -/

theorem mem_dedupFirstGo {a : String} :
    ∀ (l seen : List String), a ∈ dedupFirstGo l seen ↔ (a ∈ l ∧ a ∉ seen) := by
  intro l
  induction l with
  | nil => intro seen; simp [dedupFirstGo]
  | cons t ts ih =>
    intro seen
    by_cases h : t ∈ seen
    · simp only [dedupFirstGo, if_pos h, ih, List.mem_cons]
      constructor
      · rintro ⟨h1, h2⟩; exact ⟨Or.inr h1, h2⟩
      · rintro ⟨h1 | h1, h2⟩
        · exact absurd (h1 ▸ h) h2
        · exact ⟨h1, h2⟩
    · simp only [dedupFirstGo, if_neg h, List.mem_cons, ih]
      constructor
      · rintro (h1 | ⟨h1, h2⟩)
        · subst h1; exact ⟨Or.inl rfl, h⟩
        · refine ⟨Or.inr h1, fun hc => h2 (Or.inr hc)⟩
      · rintro ⟨h1 | h1, h2⟩
        · exact Or.inl h1
        · by_cases hat : a = t
          · exact Or.inl hat
          · exact Or.inr ⟨h1, by simp [hat, h2]⟩

theorem mem_dedupFirst {a : String} (l : List String) : a ∈ dedupFirst l ↔ a ∈ l := by
  simp [dedupFirst, mem_dedupFirstGo]

theorem dedupFirst_ne_nil {l : List String} (h : l ≠ []) : dedupFirst l ≠ [] := by
  cases l with
  | nil => exact absurd rfl h
  | cons t ts =>
    intro hc
    have hm : t ∈ dedupFirst (t :: ts) := (mem_dedupFirst _).mpr (List.mem_cons_self t ts)
    rw [hc] at hm
    simp at hm

theorem foldl_best_mem {β : Type} [LinearOrder β] (key : String → β) :
    ∀ (ts : List String) (t : String),
      ts.foldl (fun best x => if key best < key x then x else best) t ∈ t :: ts := by
  intro ts
  induction ts with
  | nil => intro t; simp
  | cons x xs ih =>
    intro t
    simp only [List.foldl_cons]
    rcases List.mem_cons.mp (ih (if key t < key x then x else t)) with h1 | h1
    · rw [h1]
      by_cases hc : key t < key x
      · simp [hc]
      · simp [hc]
    · exact List.mem_cons_of_mem _ (List.mem_cons_of_mem _ h1)

theorem foldl_best_le {β : Type} [LinearOrder β] (key : String → β) :
    ∀ (ts : List String) (t y : String), y ∈ t :: ts →
      key y ≤ key (ts.foldl (fun best x => if key best < key x then x else best) t) := by
  intro ts
  induction ts with
  | nil =>
    intro t y hy
    simp only [List.mem_singleton] at hy
    subst hy
    simp
  | cons x xs ih =>
    intro t y hy
    simp only [List.foldl_cons]
    have hts : key t ≤ key (if key t < key x then x else t) := by
      by_cases hc : key t < key x
      · rw [if_pos hc]; exact le_of_lt hc
      · rw [if_neg hc]
    have hxs : key x ≤ key (if key t < key x then x else t) := by
      by_cases hc : key t < key x
      · rw [if_pos hc]
      · rw [if_neg hc]; exact le_of_not_lt hc
    rcases List.mem_cons.mp hy with h1 | h1
    · subst h1
      exact le_trans hts (ih _ _ (List.mem_cons_self _ xs))
    · rcases List.mem_cons.mp h1 with h2 | h2
      · subst h2
        exact le_trans hxs (ih _ _ (List.mem_cons_self _ xs))
      · exact ih _ y (List.mem_cons_of_mem _ h2)

theorem pyMax_spec {β : Type} [LinearOrder β] (key : String → β) (l : List String)
    (h : l ≠ []) : ∃ m, pyMax key l = some m ∧ m ∈ l ∧ ∀ x ∈ l, key x ≤ key m := by
  cases l with
  | nil => exact absurd rfl h
  | cons t ts =>
    exact ⟨_, rfl, foldl_best_mem key ts t, fun x hx => foldl_best_le key ts t x hx⟩

theorem firstTagMatch_some {p : String → Option String} :
    ∀ {tags : List String} {t raw : String}, firstTagMatch p tags = some (t, raw) →
      ∃ ts₁ ts₂, tags = ts₁ ++ t :: ts₂ ∧ (∀ u ∈ ts₁, p u = none) ∧ p t = some raw := by
  intro tags
  induction tags with
  | nil => intro t raw h; simp [firstTagMatch] at h
  | cons x xs ih =>
    intro t raw h
    rw [firstTagMatch] at h
    cases hx : p x with
    | some r =>
      rw [hx] at h
      simp only [Option.some.injEq, Prod.mk.injEq] at h
      obtain ⟨h1, h2⟩ := h
      subst h1; subst h2
      exact ⟨[], xs, rfl, by simp, hx⟩
    | none =>
      rw [hx] at h
      obtain ⟨ts₁, ts₂, h1, h2, h3⟩ := ih h
      refine ⟨x :: ts₁, ts₂, by rw [h1]; rfl, ?_, h3⟩
      intro u hu
      rcases List.mem_cons.mp hu with h4 | h4
      · subst h4; exact hx
      · exact h2 u h4

theorem firstTagMatch_none {p : String → Option String} :
    ∀ {tags : List String}, firstTagMatch p tags = none ↔ ∀ u ∈ tags, p u = none := by
  intro tags
  induction tags with
  | nil => simp [firstTagMatch]
  | cons x xs ih =>
    rw [firstTagMatch]
    cases hx : p x with
    | some r =>
      simp only [List.mem_cons]
      constructor
      · intro h; cases h
      · intro h
        have := h x (Or.inl rfl)
        rw [hx] at this
        cases this
    | none =>
      simp only [List.mem_cons, ih]
      constructor
      · intro h u hu
        rcases hu with h1 | h1
        · subst h1; exact hx
        · exact h u h1
      · intro h u hu
        exact h u (Or.inr hu)

theorem firstPatternMatch_some :
    ∀ {ps : List (String → Option String)} {tags : List String} {t raw : String},
      firstPatternMatch ps tags = some (t, raw) →
      ∃ ps₁ p ps₂, ps = ps₁ ++ p :: ps₂ ∧ (∀ q ∈ ps₁, ∀ u ∈ tags, q u = none) ∧
        firstTagMatch p tags = some (t, raw) := by
  intro ps
  induction ps with
  | nil => intro tags t raw h; simp [firstPatternMatch] at h
  | cons p rest ih =>
    intro tags t raw h
    rw [firstPatternMatch] at h
    cases hp : firstTagMatch p tags with
    | some r =>
      rw [hp] at h
      simp only [Option.some.injEq] at h
      subst h
      exact ⟨[], p, rest, rfl, by simp, hp⟩
    | none =>
      rw [hp] at h
      obtain ⟨ps₁, q, ps₂, h1, h2, h3⟩ := ih h
      refine ⟨p :: ps₁, q, ps₂, by rw [h1]; rfl, ?_, h3⟩
      intro q2 hq2 u hu
      rcases List.mem_cons.mp hq2 with h4 | h4
      · subst h4; exact firstTagMatch_none.mp hp u hu
      · exact h2 q2 h4 u hu

theorem firstPatternMatch_none :
    ∀ {ps : List (String → Option String)} {tags : List String},
      firstPatternMatch ps tags = none ↔ ∀ p ∈ ps, ∀ u ∈ tags, p u = none := by
  intro ps
  induction ps with
  | nil => intro tags; simp [firstPatternMatch]
  | cons p rest ih =>
    intro tags
    rw [firstPatternMatch]
    cases hp : firstTagMatch p tags with
    | some r =>
      simp only [List.mem_cons]
      constructor
      · intro h; cases h
      · intro h
        have : firstTagMatch p tags = none :=
          firstTagMatch_none.mpr (fun u hu => h p (Or.inl rfl) u hu)
        rw [hp] at this
        cases this
    | none =>
      simp only [List.mem_cons, ih]
      constructor
      · intro h q hq u hu
        rcases hq with h1 | h1
        · subst h1; exact firstTagMatch_none.mp hp u hu
        · exact h q h1 u hu
      · intro h q hq u hu
        exact h q (Or.inr hq) u hu

theorem firstPatternMatch_isSome {ps : List (String → Option String)} {tags : List String}
    (h : ∃ p ∈ ps, ∃ t ∈ tags, (p t).isSome = true) :
    ∃ t raw, firstPatternMatch ps tags = some (t, raw) := by
  rcases h with ⟨p, hp, t, ht, hsome⟩
  cases hfpm : firstPatternMatch ps tags with
  | some r =>
    obtain ⟨t2, raw2⟩ := r
    exact ⟨t2, raw2, rfl⟩
  | none =>
    exfalso
    have := firstPatternMatch_none.mp hfpm p hp t ht
    rw [this] at hsome
    cases hsome

theorem firstPatternMatch_mem {ps : List (String → Option String)} {tags : List String}
    {t raw : String} (h : firstPatternMatch ps tags = some (t, raw)) : t ∈ tags := by
  obtain ⟨_, p, _, _, _, h3⟩ := firstPatternMatch_some h
  obtain ⟨ts₁, ts₂, h4, _, _⟩ := firstTagMatch_some h3
  rw [h4]
  exact List.mem_append.mpr (Or.inr (List.mem_cons_self t ts₂))

theorem takeDigits_append : ∀ cs : List Char, (takeDigits cs).1 ++ (takeDigits cs).2 = cs := by
  intro cs
  induction cs with
  | nil => rfl
  | cons c rest ih =>
    by_cases h : c.isDigit
    · simp [takeDigits, h, ih]
    · simp [takeDigits, h]

theorem takeDigits_digits : ∀ cs : List Char, ∀ x ∈ (takeDigits cs).1, x.isDigit = true := by
  intro cs
  induction cs with
  | nil => intro x hx; simp [takeDigits] at hx
  | cons c rest ih =>
    intro x hx
    by_cases h : c.isDigit
    · rw [takeDigits] at hx
      simp only [if_pos h] at hx
      rcases List.mem_cons.mp hx with h1 | h1
      · subst h1; exact h
      · exact ih x h1
    · rw [takeDigits] at hx
      simp only [if_neg h] at hx
      simp at hx

theorem takeDigits_rest_head : ∀ cs x t, (takeDigits cs).2 = x :: t → x.isDigit = false := by
  intro cs
  induction cs with
  | nil => intro x t h; simp [takeDigits] at h
  | cons c rest ih =>
    intro x t h
    by_cases hc : c.isDigit
    · rw [takeDigits] at h
      simp only [if_pos hc] at h
      exact ih x t h
    · rw [takeDigits] at h
      simp only [if_neg hc] at h
      rw [List.cons.injEq] at h
      rw [← h.1]
      exact Bool.eq_false_iff.mpr hc

theorem takeDigits_of_decomp : ∀ (a r : List Char), (∀ x ∈ a, x.isDigit = true) →
    (∀ x t, r = x :: t → x.isDigit = false) → takeDigits (a ++ r) = (a, r) := by
  intro a
  induction a with
  | nil =>
    intro r _ hr
    cases r with
    | nil => rfl
    | cons x t =>
      have hx : x.isDigit = false := hr x t rfl
      simp [takeDigits, hx]
  | cons c a2 ih =>
    intro r hdig hr
    have hc : c.isDigit = true := hdig c (List.mem_cons_self c a2)
    have ih2 := ih r (fun x hx => hdig x (List.mem_cons_of_mem c hx)) hr
    simp [takeDigits, hc, ih2]

theorem takeDigits_dot (a r : List Char) (hd : ∀ x ∈ a, x.isDigit = true) :
    takeDigits (a ++ '.' :: r) = (a, '.' :: r) := by
  refine takeDigits_of_decomp a ('.' :: r) hd ?_
  intro x t hxt
  rw [List.cons.injEq] at hxt
  rw [← hxt.1]
  decide

theorem takeDigits_fst_ne_nil {c : Char} {cs : List Char} (h : c.isDigit = true) :
    (takeDigits (c :: cs)).1 ≠ [] := by
  simp [takeDigits, h]

theorem semverAt_some {cs m : List Char} (h : semverAt cs = some m) :
    ∃ a b c r, cs = a ++ '.' :: (b ++ '.' :: (c ++ r)) ∧
      m = a ++ '.' :: (b ++ '.' :: c) ∧
      a ≠ [] ∧ b ≠ [] ∧ c ≠ [] ∧
      (∀ x ∈ a, x.isDigit = true) ∧ (∀ x ∈ b, x.isDigit = true) ∧
      (∀ x ∈ c, x.isDigit = true) ∧
      (∀ x t, r = x :: t → x.isDigit = false) := by
  unfold semverAt at h
  split at h
  · next a r2 heq =>
    by_cases ha : a = []
    · rw [if_pos ha] at h; cases h
    · rw [if_neg ha] at h
      split at h
      · next b r4 heq2 =>
        by_cases hb : b = []
        · rw [if_pos hb] at h; cases h
        · rw [if_neg hb] at h
          split at h
          next c r5 heq3 =>
            by_cases hc : c = []
            · rw [if_pos hc] at h; cases h
            · rw [if_neg hc] at h
              simp only [Option.some.injEq] at h
              have e1 := takeDigits_append cs
              rw [heq] at e1
              have d1 := takeDigits_digits cs
              rw [heq] at d1
              have e2 := takeDigits_append r2
              rw [heq2] at e2
              have d2 := takeDigits_digits r2
              rw [heq2] at d2
              have e3 := takeDigits_append r4
              rw [heq3] at e3
              have d3 := takeDigits_digits r4
              rw [heq3] at d3
              refine ⟨a, b, c, r5, ?_, h.symm, ha, hb, hc, d1, d2, d3, ?_⟩
              · rw [← e1, ← e2, ← e3]
              · intro x t hxt
                exact takeDigits_rest_head r4 x t (by rw [heq3]; exact hxt)
      · cases h
  · cases h

theorem semverAt_of_decomp {a b c r : List Char} (ha : a ≠ []) (hb : b ≠ []) (hc : c ≠ [])
    (hda : ∀ x ∈ a, x.isDigit = true) (hdb : ∀ x ∈ b, x.isDigit = true)
    (hdc : ∀ x ∈ c, x.isDigit = true) :
    ∃ m, semverAt (a ++ '.' :: (b ++ '.' :: (c ++ r))) = some m := by
  cases hsv : semverAt (a ++ '.' :: (b ++ '.' :: (c ++ r))) with
  | some m => exact ⟨m, rfl⟩
  | none =>
    exfalso
    unfold semverAt at hsv
    rw [takeDigits_dot a _ hda] at hsv
    split at hsv
    · next a2 r2 heq =>
      rw [Prod.mk.injEq, List.cons.injEq] at heq
      obtain ⟨ha2, -, hr2⟩ := heq
      subst ha2
      subst hr2
      rw [if_neg ha, takeDigits_dot b _ hdb] at hsv
      split at hsv
      · next b2 r4 heq2 =>
        rw [Prod.mk.injEq, List.cons.injEq] at heq2
        obtain ⟨hb2, -, hr4⟩ := heq2
        subst hb2
        subst hr4
        rw [if_neg hb] at hsv
        split at hsv
        next c2 r5 heq3 =>
          cases c with
          | nil => exact hc rfl
          | cons c0 ct =>
            have hc0 : c0.isDigit = true := hdc c0 (List.mem_cons_self _ _)
            have hne := @takeDigits_fst_ne_nil c0 (ct ++ r) hc0
            rw [show (c0 :: ct) ++ r = c0 :: (ct ++ r) from rfl] at heq3
            rw [heq3] at hne
            rw [if_neg hne] at hsv
            cases hsv
      · next heq2 =>
        exact heq2 b (c ++ r) rfl
    · next heq =>
      exact heq a (b ++ '.' :: (c ++ r)) rfl

theorem semverDecomp_iff_semverAt {cs : List Char} :
    semverDecomp cs ↔ ∃ m, semverAt cs = some m := by
  constructor
  · rintro ⟨a, b, c, r, hcs, ha, hb, hc, hda, hdb, hdc⟩
    rw [hcs]
    exact semverAt_of_decomp ha hb hc hda hdb hdc
  · rintro ⟨m, hm⟩
    obtain ⟨a, b, c, r, hcs, _, ha, hb, hc, hda, hdb, hdc, _⟩ := semverAt_some hm
    exact ⟨a, b, c, r, hcs, ha, hb, hc, hda, hdb, hdc⟩

theorem scanPositions_some {f : List Char → Option (List Char)} :
    ∀ {cs m : List Char}, scanPositions f cs = some m →
      ∃ j, f (cs.drop j) = some m ∧ ∀ k, k < j → f (cs.drop k) = none := by
  intro cs
  induction cs with
  | nil => intro m h; simp [scanPositions] at h
  | cons c rest ih =>
    intro m h
    rw [scanPositions] at h
    cases hf : f (c :: rest) with
    | some w =>
      rw [hf] at h
      simp only [Option.some.injEq] at h
      subst h
      exact ⟨0, hf, fun k hk => absurd hk (Nat.not_lt_zero k)⟩
    | none =>
      rw [hf] at h
      obtain ⟨j, hj, hnone⟩ := ih h
      refine ⟨j + 1, hj, ?_⟩
      intro k hk
      cases k with
      | zero => exact hf
      | succ k2 => exact hnone k2 (by omega)

theorem scanPositions_none {f : List Char → Option (List Char)} (hf0 : f [] = none) :
    ∀ {cs : List Char}, scanPositions f cs = none → ∀ j, f (cs.drop j) = none := by
  intro cs
  induction cs with
  | nil =>
    intro _ j
    rw [List.drop_nil]
    exact hf0
  | cons c rest ih =>
    intro h j
    rw [scanPositions] at h
    cases hf : f (c :: rest) with
    | some w => rw [hf] at h; cases h
    | none =>
      rw [hf] at h
      cases j with
      | zero => exact hf
      | succ j2 => exact ih h j2

theorem ts10At_windowAt (cs : List Char) (j : Nat) :
    ts10At (cs.drop j) = if windowAt cs j then some ((cs.drop j).take 10) else none := rfl

theorem ts10At_nil : ts10At [] = none := by decide

theorem semverAt_nil : semverAt [] = none := rfl

theorem searchTs10_eq_none_iff {s : String} :
    searchTs10 s = none ↔ ∀ j, ¬ windowAt s.data j := by
  unfold searchTs10
  constructor
  · intro h j hw
    have hnone : scanPositions ts10At s.data = none := by
      cases hs : scanPositions ts10At s.data with
      | none => rfl
      | some m => rw [hs] at h; cases h
    have hj := scanPositions_none ts10At_nil hnone j
    rw [ts10At_windowAt, if_pos hw] at hj
    cases hj
  · intro h
    cases hs : scanPositions ts10At s.data with
    | none => rfl
    | some m =>
      exfalso
      obtain ⟨j, hj, -⟩ := scanPositions_some hs
      rw [ts10At_windowAt] at hj
      by_cases hw : windowAt s.data j
      · exact h j hw
      · rw [if_neg hw] at hj; cases hj

theorem searchTs10_eq_some {s : String} {m : String} (h : searchTs10 s = some m) :
    ∃ i, windowAt s.data i ∧ (∀ k, k < i → ¬ windowAt s.data k) ∧
      m = String.mk ((s.data.drop i).take 10) := by
  unfold searchTs10 at h
  cases hs : scanPositions ts10At s.data with
  | none => rw [hs] at h; cases h
  | some w =>
    rw [hs] at h
    simp only [Option.map_some', Option.some.injEq] at h
    obtain ⟨j, hj, hk⟩ := scanPositions_some hs
    rw [ts10At_windowAt] at hj
    by_cases hw : windowAt s.data j
    · rw [if_pos hw] at hj
      simp only [Option.some.injEq] at hj
      refine ⟨j, hw, ?_, ?_⟩
      · intro k hk2 hw2
        have hzk := hk k hk2
        rw [ts10At_windowAt, if_pos hw2] at hzk
        cases hzk
      · rw [← h, hj]
    · rw [if_neg hw] at hj
      cases hj

theorem searchSemver_eq_none_iff {s : String} :
    searchSemver s = none ↔ ∀ j, ¬ semverDecomp (s.data.drop j) := by
  unfold searchSemver
  constructor
  · intro h j hd
    have hnone : scanPositions semverAt s.data = none := by
      cases hs : scanPositions semverAt s.data with
      | none => rfl
      | some m => rw [hs] at h; cases h
    obtain ⟨m, hm⟩ := semverDecomp_iff_semverAt.mp hd
    have hj := scanPositions_none semverAt_nil hnone j
    rw [hj] at hm
    cases hm
  · intro h
    cases hs : scanPositions semverAt s.data with
    | none => rfl
    | some m =>
      exfalso
      obtain ⟨j, hj, -⟩ := scanPositions_some hs
      exact h j (semverDecomp_iff_semverAt.mpr ⟨m, hj⟩)

theorem searchSemver_eq_some {s : String} {m : String} (h : searchSemver s = some m) :
    ∃ i, (∀ k, k < i → ¬ semverDecomp (s.data.drop k)) ∧
      ∃ a b c r, s.data.drop i = a ++ '.' :: (b ++ '.' :: (c ++ r)) ∧
        a ≠ [] ∧ b ≠ [] ∧ c ≠ [] ∧
        (∀ x ∈ a, x.isDigit = true) ∧ (∀ x ∈ b, x.isDigit = true) ∧
        (∀ x ∈ c, x.isDigit = true) ∧
        (∀ x t, r = x :: t → x.isDigit = false) ∧
        m = String.mk (a ++ '.' :: (b ++ '.' :: c)) := by
  unfold searchSemver at h
  cases hs : scanPositions semverAt s.data with
  | none => rw [hs] at h; cases h
  | some w =>
    rw [hs] at h
    simp only [Option.map_some', Option.some.injEq] at h
    obtain ⟨j, hj, hk⟩ := scanPositions_some hs
    obtain ⟨a, b, c, r, hdrop, hw, ha, hb, hc, hda, hdb, hdc, hr⟩ := semverAt_some hj
    refine ⟨j, ?_, a, b, c, r, hdrop, ha, hb, hc, hda, hdb, hdc, hr, ?_⟩
    · intro k hk2 hd
      obtain ⟨m2, hm2⟩ := semverDecomp_iff_semverAt.mp hd
      have := hk k hk2
      rw [this] at hm2
      cases hm2
    · rw [← h, hw]

theorem filter_ne_of_lookup_none {k : String} :
    ∀ {d : History}, lookupKey k d = none → d.filter (fun p => p.1 ≠ k) = d := by
  intro d
  induction d with
  | nil => intro _; rfl
  | cons p rest ih =>
    intro h
    obtain ⟨k2, v⟩ := p
    simp only [lookupKey] at h
    by_cases hk : k2 = k
    · rw [if_pos hk] at h; cases h
    · rw [if_neg hk] at h
      simp only [List.filter_cons]
      rw [if_pos (by simpa using hk)]
      rw [ih h]

theorem updateValueAt_of_lookup_none {k : String} {f : HistoryEntry → HistoryEntry} :
    ∀ {d : History}, lookupKey k d = none → updateValueAt k f d = d := by
  intro d
  induction d with
  | nil => intro _; rfl
  | cons p rest ih =>
    intro h
    obtain ⟨k2, v⟩ := p
    simp only [lookupKey] at h
    by_cases hk : k2 = k
    · rw [if_pos hk] at h; cases h
    · rw [if_neg hk] at h
      have ih2 := ih h
      simp only [updateValueAt, List.map_cons] at ih2 ⊢
      rw [if_neg hk, ih2]

theorem updateValueAt_cons_self (k : String) (f : HistoryEntry → HistoryEntry)
    (v : HistoryEntry) (d : History) (h : lookupKey k d = none) :
    updateValueAt k f ((k, v) :: d) = (k, f v) :: d := by
  have ht := @updateValueAt_of_lookup_none k f d h
  simp only [updateValueAt, List.map_cons] at ht ⊢
  rw [if_pos trivial, ht]

theorem cleanBeforeWrites_nil : cleanBeforeWrites [] := by
  intro pre w post h _
  exfalso
  have := congrArg List.length h
  simp at this
  omega

theorem cleanBeforeWrites_cons_nonwrite {e : Event} {tr : List Event}
    (he : e.isWrite = false) (h : cleanBeforeWrites tr) : cleanBeforeWrites (e :: tr) := by
  intro pre w post hpre hw
  cases pre with
  | nil =>
    rw [List.nil_append, List.cons.injEq] at hpre
    rw [← hpre.1, he] at hw
    cases hw
  | cons x pre2 =>
    rw [List.cons_append, List.cons.injEq] at hpre
    obtain ⟨-, htr⟩ := hpre
    exact List.mem_cons_of_mem _ (h pre2 w post htr hw)

theorem cleanBeforeWrites_block (i : Nat) {tr : List Event} (h : cleanBeforeWrites tr) :
    cleanBeforeWrites ([Event.check i, Event.ensureClean i, Event.writeCatalog i,
      Event.writeHistory i, Event.writeVersionDir i, Event.gitCommit i] ++ tr) := by
  intro pre w post hpre hw
  rcases pre with - | ⟨e1, - | ⟨e2, - | ⟨e3, - | ⟨e4, - | ⟨e5, - | ⟨e6, pre7⟩⟩⟩⟩⟩⟩
  · simp only [List.cons_append, List.nil_append, List.cons.injEq] at hpre
    rw [← hpre.1] at hw
    simp [Event.isWrite] at hw
  · simp only [List.cons_append, List.nil_append, List.cons.injEq] at hpre
    rw [← hpre.2.1] at hw
    simp [Event.isWrite] at hw
  · simp only [List.cons_append, List.nil_append, List.cons.injEq] at hpre
    rw [← hpre.2.2.1]
    simp [Event.idx, ← hpre.1, ← hpre.2.1]
  · simp only [List.cons_append, List.nil_append, List.cons.injEq] at hpre
    rw [← hpre.2.2.2.1]
    simp [Event.idx, ← hpre.1, ← hpre.2.1]
  · simp only [List.cons_append, List.nil_append, List.cons.injEq] at hpre
    rw [← hpre.2.2.2.2.1]
    simp [Event.idx, ← hpre.1, ← hpre.2.1]
  · simp only [List.cons_append, List.nil_append, List.cons.injEq] at hpre
    rw [← hpre.2.2.2.2.2.1] at hw
    simp [Event.isWrite] at hw
  · simp only [List.cons_append, List.nil_append, List.cons.injEq] at hpre
    obtain ⟨h1, h2, h3, h4, h5, h6, htr⟩ := hpre
    have hmem := h pre7 w post htr hw
    simp only [List.mem_cons]
    exact Or.inr (Or.inr (Or.inr (Or.inr (Or.inr (Or.inr hmem)))))

theorem runMainGo_ordered (dirty : Bool) :
    ∀ (apps : List AppStep) (i : Nat), cleanBeforeWrites (runMainGo dirty i apps).1 := by
  intro apps
  induction apps with
  | nil => intro i; exact cleanBeforeWrites_nil
  | cons a rest ih =>
    intro i
    rw [runMainGo]
    by_cases hn : a.needUpdate = true
    · rw [if_pos hn]
      by_cases hd : dirty = true
      · rw [if_pos hd]
        exact cleanBeforeWrites_cons_nonwrite rfl
          (cleanBeforeWrites_cons_nonwrite rfl cleanBeforeWrites_nil)
      · rw [if_neg hd]
        by_cases hc : a.commitOk = true
        · rw [if_pos hc]
          rcases hrec : runMainGo dirty (i + 1) rest with ⟨tr, code⟩
          dsimp only
          have hih := ih (i + 1)
          rw [hrec] at hih
          exact cleanBeforeWrites_block i hih
        · rw [if_neg hc]
          have hblock := cleanBeforeWrites_block i cleanBeforeWrites_nil
          simpa using hblock
    · rw [if_neg hn]
      rcases hrec : runMainGo dirty (i + 1) rest with ⟨tr, code⟩
      dsimp only
      have hih := ih (i + 1)
      rw [hrec] at hih
      exact cleanBeforeWrites_cons_nonwrite rfl hih

theorem runMainGo_dirty :
    ∀ (apps : List AppStep) (i : Nat), (∃ a ∈ apps, a.needUpdate = true) →
      (runMainGo true i apps).2 = 1 ∧
      ∀ e ∈ (runMainGo true i apps).1, e.isWrite = false := by
  intro apps
  induction apps with
  | nil => intro i h; simp at h
  | cons a rest ih =>
    intro i h
    rw [runMainGo]
    by_cases hn : a.needUpdate = true
    · rw [if_pos hn, if_pos rfl]
      refine ⟨rfl, ?_⟩
      intro e he
      simp only [List.mem_cons, List.mem_singleton] at he
      rcases he with rfl | rfl | he2
      · rfl
      · rfl
      · simp at he2
    · rw [if_neg hn]
      rcases hrec : runMainGo true (i + 1) rest with ⟨tr, code⟩
      dsimp only
      have h2 : ∃ a2 ∈ rest, a2.needUpdate = true := by
        rcases h with ⟨a2, ha2, hneed⟩
        rcases List.mem_cons.mp ha2 with rfl | hmem
        · exact absurd hneed hn
        · exact ⟨a2, hmem, hneed⟩
      have hih := ih (i + 1) h2
      rw [hrec] at hih
      refine ⟨hih.1, ?_⟩
      intro e he
      rcases List.mem_cons.mp he with rfl | he2
      · rfl
      · exact hih.2 e he2

theorem runMainGo_clean_run :
    ∀ (apps : List AppStep) (i : Nat), (∀ a ∈ apps, a.commitOk = true) →
      (runMainGo false i apps).2 = 0 ∧
      ∀ j a, apps[j]? = some a → a.needUpdate = true →
        Event.writeCatalog (i + j) ∈ (runMainGo false i apps).1 ∧
        Event.writeHistory (i + j) ∈ (runMainGo false i apps).1 ∧
        Event.writeVersionDir (i + j) ∈ (runMainGo false i apps).1 := by
  intro apps
  induction apps with
  | nil =>
    intro i _
    refine ⟨rfl, ?_⟩
    intro j a hj
    simp at hj
  | cons a rest ih =>
    intro i h
    rw [runMainGo]
    by_cases hn : a.needUpdate = true
    · rw [if_pos hn, if_neg (by simp)]
      have hc : a.commitOk = true := h a (List.mem_cons_self a rest)
      rw [if_pos hc]
      rcases hrec : runMainGo false (i + 1) rest with ⟨tr, code⟩
      dsimp only
      have hih := ih (i + 1) (fun x hx => h x (List.mem_cons_of_mem a hx))
      rw [hrec] at hih
      refine ⟨hih.1, ?_⟩
      intro j a2 hj hneed
      cases j with
      | zero => refine ⟨?_, ?_, ?_⟩ <;> simp
      | succ j2 =>
        rw [List.getElem?_cons_succ] at hj
        have hm := hih.2 j2 a2 hj hneed
        rw [show i + (j2 + 1) = i + 1 + j2 by omega]
        refine ⟨?_, ?_, ?_⟩ <;>
          · simp only [List.cons_append, List.mem_cons, List.mem_append]
            simp [hm.1, hm.2.1, hm.2.2]
    · rw [if_neg hn]
      rcases hrec : runMainGo false (i + 1) rest with ⟨tr, code⟩
      dsimp only
      have hih := ih (i + 1) (fun x hx => h x (List.mem_cons_of_mem a hx))
      rw [hrec] at hih
      refine ⟨hih.1, ?_⟩
      intro j a2 hj hneed
      cases j with
      | zero =>
        rw [List.getElem?_cons_zero] at hj
        simp only [Option.some.injEq] at hj
        rw [← hj] at hneed
        exact absurd hneed hn
      | succ j2 =>
        rw [List.getElem?_cons_succ] at hj
        have hm := hih.2 j2 a2 hj hneed
        rw [show i + (j2 + 1) = i + 1 + j2 by omega]
        exact ⟨List.mem_cons_of_mem _ hm.1, List.mem_cons_of_mem _ hm.2.1,
          List.mem_cons_of_mem _ hm.2.2⟩

theorem dirty_paths_nil_of_skips {statusLines : List String}
    (h : ∀ ln ∈ statusLines, ∀ p ∈ porcelainPaths ln, updaterSkip p = true) :
    dirty_paths statusLines = [] := by
  unfold dirty_paths
  rw [List.filter_eq_nil_iff]
  intro p hp
  simp only [List.mem_flatten, List.mem_map] at hp
  obtain ⟨l, ⟨ln, hln, rfl⟩, hpl⟩ := hp
  have := h ln (List.mem_of_mem_filter hln) p hpl
  simp [this]

theorem choose_best_tag_nil : choose_best_tag [] = none := by decide

theorem filter_dedup_ne_nil {P : String → Bool} {tags : List String} :
    (dedupFirst tags).filter P ≠ [] ↔ ∃ t ∈ tags, P t = true := by
  constructor
  · intro h
    cases hf : (dedupFirst tags).filter P with
    | nil => exact absurd hf h
    | cons x xs =>
      have hx : x ∈ (dedupFirst tags).filter P := by
        rw [hf]; exact List.mem_cons_self x xs
      have hm := List.mem_filter.mp hx
      exact ⟨x, (mem_dedupFirst tags).mp hm.1, hm.2⟩
  · rintro ⟨t, ht, hP⟩ hc
    have hm : t ∈ (dedupFirst tags).filter P :=
      List.mem_filter.mpr ⟨(mem_dedupFirst tags).mpr ht, hP⟩
    rw [hc] at hm
    simp at hm

theorem choose_best_tag_mem (tags : List String) (h : tags ≠ []) :
    ∃ c, choose_best_tag tags = some c ∧ c ∈ tags := by
  unfold choose_best_tag
  split_ifs with h1 h2 h3 h4
  · obtain ⟨m, hm, hmem, _⟩ := pyMax_spec ts_val _ h1
    exact ⟨m, hm, (mem_dedupFirst tags).mp (List.mem_of_mem_filter hmem)⟩
  · obtain ⟨m, hm, hmem, _⟩ := pyMax_spec semver_key _ h2
    exact ⟨m, hm, (mem_dedupFirst tags).mp (List.mem_of_mem_filter hmem)⟩
  · obtain ⟨m, hm, hmem, _⟩ := pyMax_spec arch_ts_key _ h3
    exact ⟨m, hm, (mem_dedupFirst tags).mp (List.mem_of_mem_filter hmem)⟩
  · obtain ⟨m, hm, hmem, _⟩ := pyMax_spec len_lex_key _ h4
    exact ⟨m, hm, (mem_dedupFirst tags).mp (List.mem_of_mem_filter hmem)⟩
  · cases hd : dedupFirst tags with
    | nil => exact absurd hd (dedupFirst_ne_nil h)
    | cons c cs =>
      refine ⟨c, rfl, ?_⟩
      have : c ∈ dedupFirst tags := by rw [hd]; exact List.mem_cons_self c cs
      exact (mem_dedupFirst tags).mp this

/-! # Theorems -/

/-- Claim C1: when some pattern matches some tag, parse_version tries
patterns in list order and tags in their given order, returning the first
matching tag with the matched substring passed through the rewriter; it
never returns a later match.  In particular, on the jellyfin example it
returns the ten-digit tag with itself as version. -/
theorem c1_parse_version_first_match :
    (∀ (tags : List String) (ps : List (String → Option String))
        (rwr : Option (String → String)),
      (∃ p ∈ ps, ∃ t ∈ tags, (p t).isSome = true) →
      ∃ ps₁ p ps₂ ts₁ t ts₂ raw,
        ps = ps₁ ++ p :: ps₂ ∧
        tags = ts₁ ++ t :: ts₂ ∧
        (∀ q ∈ ps₁, ∀ u ∈ tags, q u = none) ∧
        (∀ u ∈ ts₁, p u = none) ∧
        p t = some raw ∧
        parse_version tags (MatcherArg.many ps) rwr = some (t, applyRewriter rwr raw)) ∧
    parse_version jellyfinTags (MatcherArg.many jellyfinPatterns) none =
      some ("2025121505", "2025121505") := by
  constructor
  · intro tags ps rwr h
    obtain ⟨t, raw, hfpm⟩ := firstPatternMatch_isSome h
    obtain ⟨ps₁, p, ps₂, hps, hnone, htag⟩ := firstPatternMatch_some hfpm
    obtain ⟨ts₁, ts₂, htags, hnone2, hpt⟩ := firstTagMatch_some htag
    refine ⟨ps₁, p, ps₂, ts₁, t, ts₂, raw, hps, htags, hnone, hnone2, hpt, ?_⟩
    unfold parse_version
    rw [show normalizeMatcher (MatcherArg.many ps) = ps from rfl, hfpm]
  · decide

/-- Witness for C1 on the jellyfin tag and pattern lists. -/
theorem c1_witness :
    (∃ p ∈ jellyfinPatterns, ∃ t ∈ jellyfinTags, (p t).isSome = true) ∧
    (∃ ps₁ p ps₂ ts₁ t ts₂ raw,
      jellyfinPatterns = ps₁ ++ p :: ps₂ ∧
      jellyfinTags = ts₁ ++ t :: ts₂ ∧
      (∀ q ∈ ps₁, ∀ u ∈ jellyfinTags, q u = none) ∧
      (∀ u ∈ ts₁, p u = none) ∧
      p t = some raw ∧
      parse_version jellyfinTags (MatcherArg.many jellyfinPatterns) none =
        some (t, applyRewriter none raw)) := by
  have hyp : ∃ p ∈ jellyfinPatterns, ∃ t ∈ jellyfinTags, (p t).isSome = true :=
    ⟨patAnchoredTs10, by simp [jellyfinPatterns], "2025121505",
      by simp [jellyfinTags], by decide⟩
  exact ⟨hyp, c1_parse_version_first_match.1 jellyfinTags jellyfinPatterns none hyp⟩

/-- Claim C10: on a nonempty tag list the chosen tag of parse_version is a
member of the input, for any matcher and rewriter, in both the matching
branch and the heuristic branch; choose_best_tag likewise returns a member
of its nonempty input; on an empty input both fail. -/
theorem c10_chosen_tag_membership (tags : List String) (m : MatcherArg)
    (rwr : Option (String → String)) :
    (tags ≠ [] → ∃ t v, parse_version tags m rwr = some (t, v) ∧ t ∈ tags) ∧
    (tags = [] → parse_version tags m rwr = none) ∧
    (tags ≠ [] → ∃ c, choose_best_tag tags = some c ∧ c ∈ tags) ∧
    (tags = [] → choose_best_tag tags = none) := by
  refine ⟨?_, ?_, choose_best_tag_mem tags, ?_⟩
  · intro h
    cases hfpm : firstPatternMatch (normalizeMatcher m) tags with
    | some r =>
      obtain ⟨t, raw⟩ := r
      refine ⟨t, applyRewriter rwr raw, ?_, firstPatternMatch_mem hfpm⟩
      unfold parse_version
      rw [hfpm]
    | none =>
      obtain ⟨c, hc, hmem⟩ := choose_best_tag_mem tags h
      refine ⟨c, applyRewriter rwr (derive_app_version_from_tag c), ?_, hmem⟩
      unfold parse_version
      rw [hfpm, hc]
  · intro h
    subst h
    have hfpm : firstPatternMatch (normalizeMatcher m) [] = none :=
      firstPatternMatch_none.mpr (by simp)
    unfold parse_version
    rw [hfpm, choose_best_tag_nil]
  · intro h
    subst h
    exact choose_best_tag_nil

/-- Witness for C10 at a concrete nonempty tag list with no matcher. -/
theorem c10_witness :
    (["latest"] ≠ ([] : List String)) ∧
    (∃ t v, parse_version ["latest"] MatcherArg.nothing none = some (t, v) ∧
      t ∈ ["latest"]) :=
  ⟨by decide, (c10_chosen_tag_membership ["latest"] MatcherArg.nothing none).1 (by decide)⟩

/-- Claim C9: every file-writing event in any run trace is preceded by the
cleanliness check of its application; when the status shows a dirty path
outside the reserved maintenance path and some application needs an
update, the run exits with status one and writes nothing; a status whose
paths are all confined to the reserved path never makes the check fail,
and with successful commits such a run completes with exit status zero
performing every needed write. -/
theorem c9_clean_check_gates_writes (apps : List AppStep) (statusLines : List String) :
    ((∀ ln ∈ statusLines, ∀ p ∈ porcelainPaths ln, updaterSkip p = true) →
      ensure_clean_git_fails statusLines = false) ∧
    (ensure_clean_git_fails statusLines = true → (∃ a ∈ apps, a.needUpdate = true) →
      (runMain apps statusLines).2 = 1 ∧
      ∀ e ∈ (runMain apps statusLines).1, e.isWrite = false) ∧
    cleanBeforeWrites (runMain apps statusLines).1 ∧
    (ensure_clean_git_fails statusLines = false → (∀ a ∈ apps, a.commitOk = true) →
      (runMain apps statusLines).2 = 0 ∧
      ∀ j a, apps[j]? = some a → a.needUpdate = true →
        Event.writeCatalog j ∈ (runMain apps statusLines).1 ∧
        Event.writeHistory j ∈ (runMain apps statusLines).1 ∧
        Event.writeVersionDir j ∈ (runMain apps statusLines).1) := by
  refine ⟨?_, ?_, runMainGo_ordered _ apps 0, ?_⟩
  · intro h
    unfold ensure_clean_git_fails
    rw [dirty_paths_nil_of_skips h]
    rfl
  · intro hdirty hneed
    unfold runMain
    rw [hdirty]
    exact runMainGo_dirty apps 0 hneed
  · intro hclean hcommits
    unfold runMain
    rw [hclean]
    have := runMainGo_clean_run apps 0 hcommits
    refine ⟨this.1, ?_⟩
    intro j a hj hneed
    have hm := this.2 j a hj hneed
    rw [Nat.zero_add] at hm
    exact hm

/-- Witness for C9: a run over one application needing an update with a
dirty path outside the reserved maintenance path exits with status one and
performs no write. -/
theorem c9_witness :
    ensure_clean_git_fails ["?? somefile.txt"] = true ∧
    (∃ a ∈ [({ needUpdate := true, commitOk := true } : AppStep)],
      a.needUpdate = true) ∧
    ((runMain [{ needUpdate := true, commitOk := true }] ["?? somefile.txt"]).2 = 1 ∧
      ∀ e ∈ (runMain [{ needUpdate := true, commitOk := true }]
        ["?? somefile.txt"]).1, e.isWrite = false) :=
  ⟨by decide, ⟨{ needUpdate := true, commitOk := true }, List.mem_cons_self _ _, rfl⟩,
    (c9_clean_check_gates_writes
      [{ needUpdate := true, commitOk := true }] ["?? somefile.txt"]).2.1
      (by decide)
      ⟨{ needUpdate := true, commitOk := true }, List.mem_cons_self _ _, rfl⟩⟩

/-- Counterexample to claim C8 as stated: when the history already holds
an entry under the new chart version key, the update does not install a
clone of the old entry: it keeps the pre-existing entry at that key and
only overwrites the listed fields, so an untouched field (here "note")
retains the pre-existing value "x" instead of the old entry value "y",
and the prior entry under that key is not retained unchanged. -/
theorem c8_cex :
    ∃ d, update_app_version_json
        [("1.0.1", ⟨"L/1.0.1", "1.0.1", "h1", "d1",
          ⟨"1.0.1", "app1", [("note", "x")]⟩, [("note", "x")]⟩),
         ("1.0.0", ⟨"L/1.0.0", "1.0.0", "h0", "d0",
          ⟨"1.0.0", "app0", [("note", "y")]⟩, [("note", "y")]⟩)]
        { version := "1.0.0", app_version := "app0", last_update := "d0" }
        { version := "1.0.1", app_version := "app2", last_update := "d2" } =
        Except.ok d ∧
      ∃ e, lookupKey "1.0.1" d = some e ∧ e.extra ≠ [("note", "y")] :=
  ⟨_, rfl, _, rfl, by decide⟩

/-- Claim C8 (amended): when the history holds an entry for the old
version and none for the new version, the update prepends the new key
bound to a clone of the old entry with exactly location, version,
human_version, last_update and the chart_metadata version and appVersion
changed, retaining every prior binding unchanged; when the old version
has no entry it fails with a ValueError (the kind the spec calls
MissingHistoryEntry) without producing a history. -/
theorem c8_update_history (hist : History) (old_version new_version : ChartVersion) :
    (lookupKey old_version.version hist = none →
      ∃ msg, update_app_version_json hist old_version new_version =
        Except.error (PyError.valueError msg)) ∧
    (∀ ref, lookupKey old_version.version hist = some ref →
      lookupKey new_version.version hist = none →
      ∃ e, update_app_version_json hist old_version new_version =
          Except.ok ((new_version.version, e) :: hist) ∧
        e.location = pyReplace ref.location old_version.version new_version.version ∧
        e.version = new_version.version ∧
        e.human_version = new_version.human_version ∧
        e.last_update = new_version.last_update ∧
        e.chart_metadata.version = new_version.version ∧
        e.chart_metadata.appVersion = new_version.app_version ∧
        e.chart_metadata.extra = ref.chart_metadata.extra ∧
        e.extra = ref.extra) := by
  constructor
  · intro h
    refine ⟨"Could not find version in history", ?_⟩
    unfold update_app_version_json
    rw [h]
  · intro ref href hnew
    unfold update_app_version_json
    rw [href]
    dsimp only
    have hstep1 : dictInsertFirst new_version.version ref hist =
        (new_version.version, ref) :: hist := by
      unfold dictInsertFirst
      rw [hnew, filter_ne_of_lookup_none hnew]
      rfl
    rw [hstep1]
    rw [updateValueAt_cons_self _ _ _ _ hnew]
    rw [updateValueAt_cons_self _ _ _ _ hnew]
    exact ⟨_, rfl, rfl, rfl, rfl, rfl, rfl, rfl, rfl, rfl⟩

/-- Witness for C8 at a concrete one-entry history. -/
theorem c8_witness :
    (lookupKey "1.0.0"
      [("1.0.0", (⟨"L/1.0.0", "1.0.0", "app0_1.0.0", "d0",
        ⟨"1.0.0", "app0", [("note", "y")]⟩, [("note", "y")]⟩ : HistoryEntry))] =
      some ⟨"L/1.0.0", "1.0.0", "app0_1.0.0", "d0",
        ⟨"1.0.0", "app0", [("note", "y")]⟩, [("note", "y")]⟩) ∧
    (lookupKey "1.0.1"
      [("1.0.0", (⟨"L/1.0.0", "1.0.0", "app0_1.0.0", "d0",
        ⟨"1.0.0", "app0", [("note", "y")]⟩, [("note", "y")]⟩ : HistoryEntry))] = none) ∧
    (∃ e, update_app_version_json
        [("1.0.0", ⟨"L/1.0.0", "1.0.0", "app0_1.0.0", "d0",
          ⟨"1.0.0", "app0", [("note", "y")]⟩, [("note", "y")]⟩)]
        { version := "1.0.0", app_version := "app0", last_update := "d0" }
        { version := "1.0.1", app_version := "app2", last_update := "d2" } =
        Except.ok (("1.0.1", e) ::
          [("1.0.0", ⟨"L/1.0.0", "1.0.0", "app0_1.0.0", "d0",
            ⟨"1.0.0", "app0", [("note", "y")]⟩, [("note", "y")]⟩)]) ∧
      e.location = pyReplace "L/1.0.0" "1.0.0" "1.0.1" ∧
      e.version = "1.0.1" ∧
      e.human_version = "app2_1.0.1" ∧
      e.last_update = "d2" ∧
      e.chart_metadata.version = "1.0.1" ∧
      e.chart_metadata.appVersion = "app2" ∧
      e.chart_metadata.extra = [("note", "y")] ∧
      e.extra = [("note", "y")]) :=
  ⟨by decide, by decide,
    (c8_update_history
      [("1.0.0", ⟨"L/1.0.0", "1.0.0", "app0_1.0.0", "d0",
        ⟨"1.0.0", "app0", [("note", "y")]⟩, [("note", "y")]⟩)]
      { version := "1.0.0", app_version := "app0", last_update := "d0" }
      { version := "1.0.1", app_version := "app2", last_update := "d2" }).2
      ⟨"L/1.0.0", "1.0.0", "app0_1.0.0", "d0",
        ⟨"1.0.0", "app0", [("note", "y")]⟩, [("note", "y")]⟩
      (by decide) (by decide)⟩

/-- Counterexample to claim C7 as stated: the GHCR checker never verifies
the anchor label against the tag list.  With tag list containing only
"latest" and anchor label "stable", the call does not fail with the
NotFound kind at all: it succeeds when the registry serves a manifest for
the label. -/
theorem c7_cex :
    (("stable" : String) ∉ ["latest"]) ∧
    ghcr_get_latest_version (HttpResp.ok ["latest"])
      (fun t => if t = "stable" then HttpResp.ok "sha256:abc" else HttpResp.failure)
      (some "stable") = Except.ok (["stable"], "sha256:abc") :=
  ⟨by decide, rfl⟩

/-- Claim C7 (amended): the Docker Hub checker fails with the NotFound
kind (ValueError) when the results array is empty or the anchor label is
absent from it, and with the RegistryError kind (HTTPError) on a failed
request; the GHCR checker fails with the NotFound kind only when the tag
list is empty, and with the RegistryError kind on a failed tags-list or
target-manifest request.  GHCR performs no membership check of the anchor
label against the tag list. -/
theorem c7_registry_errors :
    (∀ (page2 : HttpResp DHTagPage) (label : Option String),
      dockerhub_get_latest_version HttpResp.failure page2 label =
        Except.error PyError.httpError) ∧
    (∀ (data : DHTagPage) (page2 : HttpResp DHTagPage) (label : Option String),
      data.results = [] →
      ∃ msg, dockerhub_get_latest_version (HttpResp.ok data) page2 label =
        Except.error (PyError.valueError msg)) ∧
    (∀ (data : DHTagPage) (page2 : HttpResp DHTagPage) (l : String),
      data.results ≠ [] → (∀ r ∈ data.results, r.name ≠ l) →
      ∃ msg, dockerhub_get_latest_version (HttpResp.ok data) page2 (some l) =
        Except.error (PyError.valueError msg)) ∧
    (∀ (manifest : String → HttpResp String) (label : Option String),
      ghcr_get_latest_version HttpResp.failure manifest label =
        Except.error PyError.httpError) ∧
    (∀ (manifest : String → HttpResp String) (label : Option String),
      ∃ msg, ghcr_get_latest_version (HttpResp.ok []) manifest label =
        Except.error (PyError.valueError msg)) ∧
    (∀ (t0 : String) (rest : List String)
        (manifest : String → HttpResp String) (label : Option String),
      manifest (label.getD t0) = HttpResp.failure →
      ghcr_get_latest_version (HttpResp.ok (t0 :: rest)) manifest label =
        Except.error PyError.httpError) := by
  refine ⟨fun page2 label => rfl, ?_, ?_, fun manifest label => rfl,
    fun manifest label => ⟨"No tags found", rfl⟩, ?_⟩
  · intro data page2 label hres
    refine ⟨"No tags found", ?_⟩
    simp [dockerhub_get_latest_version, hres]
  · intro data page2 l hne hnames
    refine ⟨"No tags matching label found", ?_⟩
    have hempty : data.results.isEmpty = false := by
      cases hres : data.results with
      | nil => exact absurd hres hne
      | cons x xs => rfl
    have hfilter : data.results.filter (fun r => r.name = l) = [] := by
      rw [List.filter_eq_nil_iff]
      intro r hr
      simp [hnames r hr]
    simp [dockerhub_get_latest_version, hempty, hfilter]
  · intro t0 rest manifest label hmf
    simp [ghcr_get_latest_version, hmf]

/-- Witness for C7 at a concrete Docker Hub page missing the anchor
label. -/
theorem c7_witness :
    ((⟨[⟨"latest", some "sha256:aaa"⟩], false⟩ : DHTagPage).results ≠ []) ∧
    (∀ r ∈ (⟨[⟨"latest", some "sha256:aaa"⟩], false⟩ : DHTagPage).results,
      r.name ≠ "stable") ∧
    (∃ msg, dockerhub_get_latest_version
      (HttpResp.ok ⟨[⟨"latest", some "sha256:aaa"⟩], false⟩)
      HttpResp.failure (some "stable") = Except.error (PyError.valueError msg)) :=
  ⟨by decide, by decide,
    c7_registry_errors.2.2.1 ⟨[⟨"latest", some "sha256:aaa"⟩], false⟩
      HttpResp.failure "stable" (by decide) (by decide)⟩

/-- Counterexample to claim C3 as stated: the tag "1234567890.1.2" is
purely a three-part semantic version, yet the derived application version
is the embedded ten-digit substring, not the tag itself: the code checks
for an embedded ten-digit run before the full-semver check. -/
theorem c3_cex :
    isFullSemver "1234567890.1.2" = true ∧
    derive_app_version_from_tag "1234567890.1.2" = "1234567890" ∧
    derive_app_version_from_tag "1234567890.1.2" ≠ "1234567890.1.2" :=
  ⟨by decide, by decide, by decide⟩

/-- Claim C3 (amended): the derived application version is the tag itself
when the tag is purely ten digits; else the leftmost embedded ten-digit
window when one exists; else the tag itself when it is purely a three-part
semver; else the leftmost embedded greedy semver match when one exists;
else the whole tag unchanged.  The ten-digit search takes priority over
the full-semver check, so a purely semver tag embedding ten consecutive
digits yields that window, not the tag. -/
theorem c3_derive_app_version (tag : String) :
    (isFullTs10 tag = true → derive_app_version_from_tag tag = tag) ∧
    (isFullTs10 tag = false →
      ∀ j, windowAt tag.data j →
        ∃ i, windowAt tag.data i ∧ (∀ k, k < i → ¬ windowAt tag.data k) ∧
          derive_app_version_from_tag tag = String.mk ((tag.data.drop i).take 10)) ∧
    (isFullTs10 tag = false → (∀ j, ¬ windowAt tag.data j) → isFullSemver tag = true →
      derive_app_version_from_tag tag = tag) ∧
    (isFullTs10 tag = false → (∀ j, ¬ windowAt tag.data j) → isFullSemver tag = false →
      ∀ j, semverDecomp (tag.data.drop j) →
        ∃ i, (∀ k, k < i → ¬ semverDecomp (tag.data.drop k)) ∧
          ∃ a b c r, tag.data.drop i = a ++ '.' :: (b ++ '.' :: (c ++ r)) ∧
            a ≠ [] ∧ b ≠ [] ∧ c ≠ [] ∧
            (∀ x ∈ a, x.isDigit = true) ∧ (∀ x ∈ b, x.isDigit = true) ∧
            (∀ x ∈ c, x.isDigit = true) ∧
            (∀ x t, r = x :: t → x.isDigit = false) ∧
            derive_app_version_from_tag tag = String.mk (a ++ '.' :: (b ++ '.' :: c))) ∧
    (isFullTs10 tag = false → (∀ j, ¬ windowAt tag.data j) → isFullSemver tag = false →
      (∀ j, ¬ semverDecomp (tag.data.drop j)) →
      derive_app_version_from_tag tag = tag) := by
  refine ⟨?_, ?_, ?_, ?_, ?_⟩
  · intro h
    unfold derive_app_version_from_tag
    rw [if_pos h]
  · intro hts j hw
    cases hst : searchTs10 tag with
    | none => exact absurd hw (searchTs10_eq_none_iff.mp hst j)
    | some m =>
      obtain ⟨i, hwi, hki, hm⟩ := searchTs10_eq_some hst
      refine ⟨i, hwi, hki, ?_⟩
      unfold derive_app_version_from_tag
      rw [if_neg (by simp [hts]), hst]
      exact hm
  · intro hts hnw hsv
    have hst : searchTs10 tag = none := searchTs10_eq_none_iff.mpr hnw
    unfold derive_app_version_from_tag
    rw [if_neg (by simp [hts]), hst]
    simp [hsv]
  · intro hts hnw hsv j hd
    have hst : searchTs10 tag = none := searchTs10_eq_none_iff.mpr hnw
    cases hss : searchSemver tag with
    | none => exact absurd hd (searchSemver_eq_none_iff.mp hss j)
    | some m =>
      obtain ⟨i, hki, a, b, c, r, hdrop, ha, hb, hc, hda, hdb, hdc, hr, hm⟩ :=
        searchSemver_eq_some hss
      refine ⟨i, hki, a, b, c, r, hdrop, ha, hb, hc, hda, hdb, hdc, hr, ?_⟩
      unfold derive_app_version_from_tag
      rw [if_neg (by simp [hts]), hst]
      simp only [hsv]
      rw [if_neg (by simp), hss]
      exact hm
  · intro hts hnw hsv hnd
    have hst : searchTs10 tag = none := searchTs10_eq_none_iff.mpr hnw
    have hss : searchSemver tag = none := searchSemver_eq_none_iff.mpr hnd
    unfold derive_app_version_from_tag
    rw [if_neg (by simp [hts]), hst]
    simp only [hsv]
    rw [if_neg (by simp), hss]

/-- Witness for C3 on a tag with an embedded ten-digit window at position
one. -/
theorem c3_witness :
    isFullTs10 "v2025121505" = false ∧ windowAt "v2025121505".data 1 ∧
    (∃ i, windowAt "v2025121505".data i ∧
      (∀ k, k < i → ¬ windowAt "v2025121505".data k) ∧
      derive_app_version_from_tag "v2025121505" =
        String.mk (("v2025121505".data.drop i).take 10)) :=
  ⟨by decide, by decide,
    (c3_derive_app_version "v2025121505").2.1 (by decide) 1 (by decide)⟩

/-- Claim C2: the heuristic selection of choose_best_tag on a nonempty
list follows the fixed ranking: exact ten-digit timestamps by largest
numeric value; else exact three-part semvers by largest component tuple;
else dashed timestamp tags by largest timestamp value; else non-"latest"
tags by largest length-then-string pair; else the first tag of the
de-duplicated list (necessarily "latest" then). -/
theorem c2_choose_best_tag_ranking (tags : List String) (h : tags ≠ []) :
    ∃ c, choose_best_tag tags = some c ∧ c ∈ tags ∧
      ((∃ t ∈ tags, isFullTs10 t = true) →
        isFullTs10 c = true ∧ ∀ t ∈ tags, isFullTs10 t = true → ts_val t ≤ ts_val c) ∧
      ((∀ t ∈ tags, isFullTs10 t = false) → (∃ t ∈ tags, isFullSemver t = true) →
        isFullSemver c = true ∧
          ∀ t ∈ tags, isFullSemver t = true → semver_key t ≤ semver_key c) ∧
      ((∀ t ∈ tags, isFullTs10 t = false) → (∀ t ∈ tags, isFullSemver t = false) →
        (∃ t ∈ tags, isFullArchTs t = true) →
        isFullArchTs c = true ∧
          ∀ t ∈ tags, isFullArchTs t = true → arch_ts_key t ≤ arch_ts_key c) ∧
      ((∀ t ∈ tags, isFullTs10 t = false) → (∀ t ∈ tags, isFullSemver t = false) →
        (∀ t ∈ tags, isFullArchTs t = false) → (∃ t ∈ tags, t ≠ "latest") →
        c ≠ "latest" ∧ ∀ t ∈ tags, t ≠ "latest" → len_lex_key t ≤ len_lex_key c) ∧
      ((∀ t ∈ tags, t = "latest") → c = "latest") := by
  unfold choose_best_tag
  split_ifs with h1 h2 h3 h4
  · obtain ⟨m, hm, hmem, hle⟩ := pyMax_spec ts_val _ h1
    obtain ⟨hmDedup, hmP⟩ := List.mem_filter.mp hmem
    have hmTags := (mem_dedupFirst tags).mp hmDedup
    refine ⟨m, hm, hmTags, ?_, ?_, ?_, ?_, ?_⟩
    · intro _
      refine ⟨hmP, fun t ht hts => hle t (List.mem_filter.mpr
        ⟨(mem_dedupFirst tags).mpr ht, hts⟩)⟩
    · intro hno _
      exact absurd hmP (by simp [hno m hmTags])
    · intro hno _ _
      exact absurd hmP (by simp [hno m hmTags])
    · intro hno _ _ _
      exact absurd hmP (by simp [hno m hmTags])
    · intro hall
      exact absurd hmP (by rw [hall m hmTags]; decide)
  · obtain ⟨m, hm, hmem, hle⟩ := pyMax_spec semver_key _ h2
    obtain ⟨hmDedup, hmP⟩ := List.mem_filter.mp hmem
    have hmTags := (mem_dedupFirst tags).mp hmDedup
    refine ⟨m, hm, hmTags, ?_, ?_, ?_, ?_, ?_⟩
    · rintro ⟨t, ht, hts⟩
      exact absurd (filter_dedup_ne_nil.mpr ⟨t, ht, hts⟩) h1
    · intro _ _
      refine ⟨hmP, fun t ht hts => hle t (List.mem_filter.mpr
        ⟨(mem_dedupFirst tags).mpr ht, hts⟩)⟩
    · intro _ hno _
      exact absurd hmP (by simp [hno m hmTags])
    · intro _ hno _ _
      exact absurd hmP (by simp [hno m hmTags])
    · intro hall
      exact absurd hmP (by rw [hall m hmTags]; decide)
  · obtain ⟨m, hm, hmem, hle⟩ := pyMax_spec arch_ts_key _ h3
    obtain ⟨hmDedup, hmP⟩ := List.mem_filter.mp hmem
    have hmTags := (mem_dedupFirst tags).mp hmDedup
    refine ⟨m, hm, hmTags, ?_, ?_, ?_, ?_, ?_⟩
    · rintro ⟨t, ht, hts⟩
      exact absurd (filter_dedup_ne_nil.mpr ⟨t, ht, hts⟩) h1
    · rintro _ ⟨t, ht, hts⟩
      exact absurd (filter_dedup_ne_nil.mpr ⟨t, ht, hts⟩) h2
    · intro _ _ _
      refine ⟨hmP, fun t ht hts => hle t (List.mem_filter.mpr
        ⟨(mem_dedupFirst tags).mpr ht, hts⟩)⟩
    · intro _ _ hno _
      exact absurd hmP (by simp [hno m hmTags])
    · intro hall
      exact absurd hmP (by rw [hall m hmTags]; decide)
  · obtain ⟨m, hm, hmem, hle⟩ := pyMax_spec len_lex_key _ h4
    obtain ⟨hmDedup, hmP⟩ := List.mem_filter.mp hmem
    have hmTags := (mem_dedupFirst tags).mp hmDedup
    have hmNe : m ≠ "latest" := of_decide_eq_true hmP
    refine ⟨m, hm, hmTags, ?_, ?_, ?_, ?_, ?_⟩
    · rintro ⟨t, ht, hts⟩
      exact absurd (filter_dedup_ne_nil.mpr ⟨t, ht, hts⟩) h1
    · rintro _ ⟨t, ht, hts⟩
      exact absurd (filter_dedup_ne_nil.mpr ⟨t, ht, hts⟩) h2
    · rintro _ _ ⟨t, ht, hts⟩
      exact absurd (filter_dedup_ne_nil.mpr ⟨t, ht, hts⟩) h3
    · intro _ _ _ _
      refine ⟨hmNe, fun t ht hts => hle t (List.mem_filter.mpr
        ⟨(mem_dedupFirst tags).mpr ht, decide_eq_true hts⟩)⟩
    · intro hall
      exact absurd (hall m hmTags) hmNe
  · cases hd : dedupFirst tags with
    | nil => exact absurd hd (dedupFirst_ne_nil h)
    | cons c cs =>
      have hcDedup : c ∈ dedupFirst tags := by rw [hd]; exact List.mem_cons_self c cs
      have hcTags := (mem_dedupFirst tags).mp hcDedup
      refine ⟨c, rfl, hcTags, ?_, ?_, ?_, ?_, ?_⟩
      · rintro ⟨t, ht, hts⟩
        exact absurd (filter_dedup_ne_nil.mpr ⟨t, ht, hts⟩) h1
      · rintro _ ⟨t, ht, hts⟩
        exact absurd (filter_dedup_ne_nil.mpr ⟨t, ht, hts⟩) h2
      · rintro _ _ ⟨t, ht, hts⟩
        exact absurd (filter_dedup_ne_nil.mpr ⟨t, ht, hts⟩) h3
      · rintro _ _ _ ⟨t, ht, hts⟩
        exact absurd (filter_dedup_ne_nil.mpr ⟨t, ht, decide_eq_true hts⟩) h4
      · intro hall
        exact hall c hcTags

/-- Witness for C2 at the spec example: component-wise numeric comparison
selects the ten-ten-ten tag, not the lexicographic maximum. -/
theorem c2_witness :
    (["10.10.5", "10.10.6", "10.10.10"] ≠ ([] : List String)) ∧
    (∃ c, choose_best_tag ["10.10.5", "10.10.6", "10.10.10"] = some c ∧
      c ∈ ["10.10.5", "10.10.6", "10.10.10"]) ∧
    choose_best_tag ["10.10.5", "10.10.6", "10.10.10"] = some "10.10.10" := by
  obtain ⟨c, hc, hmem, -⟩ :=
    c2_choose_best_tag_ranking ["10.10.5", "10.10.6", "10.10.10"] (by decide)
  exact ⟨by decide, ⟨c, hc, hmem⟩, by decide⟩

/-- Claim C4: with a truthy local digest the update decision is true
exactly when the remote digest differs or the remote tag differs; with no
truthy local digest it is true exactly when the remote tag differs from
the local tag, so a digest change under an unchanged tag name goes
undetected then. -/
theorem c4_update_decision (pinned remote_tag remote_digest local_tag : String)
    (local_digest : Option String)
    (hsplit : split_tag_digest pinned = (local_tag, local_digest)) :
    (∀ d, local_digest = some d → d ≠ "" →
      (need_update_decision local_tag local_digest remote_tag remote_digest = true ↔
        (remote_digest ≠ d ∨ remote_tag ≠ local_tag))) ∧
    ((local_digest = none ∨ local_digest = some "") →
      (need_update_decision local_tag local_digest remote_tag remote_digest = true ↔
        remote_tag ≠ local_tag)) := by
  constructor
  · intro d hd hne
    subst hd
    simp [need_update_decision, hne, bne_iff_ne]
  · rintro (h | h) <;> subst h <;> simp [need_update_decision, bne_iff_ne]

/-- Witness for C4 at a concrete pinned tag value carrying a digest. -/
theorem c4_witness :
    split_tag_digest "v1.2.3@sha256:aaa" = ("v1.2.3", some "sha256:aaa") ∧
    (need_update_decision "v1.2.3" (some "sha256:aaa") "v1.2.3" "sha256:bbb" = true ↔
      ("sha256:bbb" ≠ "sha256:aaa" ∨ "v1.2.3" ≠ "v1.2.3")) :=
  ⟨by decide,
    (c4_update_decision "v1.2.3@sha256:aaa" "v1.2.3" "sha256:bbb" "v1.2.3"
      (some "sha256:aaa") (by decide)).1 "sha256:aaa" rfl (by decide)⟩

/-- Counterexample to claim C5 as stated: increment_version succeeds on
"a.b.3", which is not a three-part semantic version (its first two
components are not numeric), returning "a.b.4" instead of failing. -/
theorem c5_cex :
    increment_version "a.b.3" = Except.ok "a.b.4" ∧ isFullSemver "a.b.3" = false :=
  ⟨rfl, by decide⟩

/-- Claim C5 (amended): on a string splitting into exactly three dot
separated parts whose third part is an integer literal, the result keeps
the first two parts verbatim and increments the third; when the split
does not give three parts, or the third part is not an integer literal,
it fails with a ValueError (the kind the spec calls MalformedVersion).
Only the patch component is validated, so non-numeric major or minor
components are accepted and copied unchanged. -/
theorem c5_increment_version (v : String) :
    (∀ major minor patch, pySplitDot v = [major, minor, patch] →
      (∀ n, pyIntOfStr patch = some n →
        increment_version v =
          Except.ok (String.intercalate "." [major, minor, toString (n + 1)])) ∧
      (pyIntOfStr patch = none →
        ∃ m, increment_version v = Except.error (PyError.valueError m))) ∧
    ((pySplitDot v).length ≠ 3 →
      ∃ m, increment_version v = Except.error (PyError.valueError m)) := by
  constructor
  · intro major minor patch hsplit
    constructor
    · intro n hn
      unfold increment_version
      rw [hsplit]
      dsimp only
      rw [hn]
    · intro hn
      unfold increment_version
      rw [hsplit]
      dsimp only
      rw [hn]
      exact ⟨_, rfl⟩
  · intro hlen
    unfold increment_version
    rcases h : pySplitDot v with _ | ⟨a, _ | ⟨b, _ | ⟨c, _ | _⟩⟩⟩ <;>
      first
        | exact ⟨_, rfl⟩
        | (exfalso; rw [h] at hlen; simp at hlen)

/-- Witness for C5 at the concrete version of the spec example. -/
theorem c5_witness :
    pySplitDot "1.2.3" = ["1", "2", "3"] ∧ pyIntOfStr "3" = some 3 ∧
    increment_version "1.2.3" =
      Except.ok (String.intercalate "." ["1", "2", toString ((3 : Int) + 1)]) :=
  ⟨by decide, by decide,
    ((c5_increment_version "1.2.3").1 "1" "2" "3" (by decide)).1 3 (by decide)⟩

/-- Claim C6: when both records carry truthy digests, equality is digest
equality alone; otherwise it is the conjunction of tag equality and
app_version equality. -/
theorem c6_record_equality (a b : ChartVersion) :
    (optTruthy a.digest = true → optTruthy b.digest = true →
      (ChartVersion.eq a b = true ↔ a.digest = b.digest)) ∧
    ((optTruthy a.digest = false ∨ optTruthy b.digest = false) →
      (ChartVersion.eq a b = true ↔ (a.tag = b.tag ∧ a.app_version = b.app_version))) := by
  constructor
  · intro ha hb
    simp [ChartVersion.eq, ha, hb]
  · intro h
    have hfalse : (optTruthy a.digest && optTruthy b.digest) = false := by
      rcases h with h | h <;> simp [h]
    simp [ChartVersion.eq, hfalse]

/-- Witness for C6: two records with the same digest but different tags
and app versions compare by digest alone. -/
theorem c6_witness :
    optTruthy (some "sha256:aaa") = true ∧
    (ChartVersion.eq
      { version := "1.0.0", app_version := "1.0", last_update := "t",
        digest := some "sha256:aaa", tag := some "x" }
      { version := "2.0.0", app_version := "2.0", last_update := "u",
        digest := some "sha256:aaa", tag := some "y" } = true ↔
      (some "sha256:aaa" : Option String) = some "sha256:aaa") :=
  ⟨rfl,
    (c6_record_equality
      { version := "1.0.0", app_version := "1.0", last_update := "t",
        digest := some "sha256:aaa", tag := some "x" }
      { version := "2.0.0", app_version := "2.0", last_update := "u",
        digest := some "sha256:aaa", tag := some "y" }).1 rfl rfl⟩
